import Mathlib

/-!
Verification development for the media-batch-manager repository
(`sort_image.py` and `sort_document.py`), as a shallow embedding in Lean 4.

Modelling conventions:
* Python strings are `String`, file paths are `String` values treated as
  unique identifiers, directory paths are `List String` of components.
* The external hash libraries (`imagehash.average_hash`, `hashlib.md5`,
  `hashlib.sha256`, `PyPDF2.PdfReader`, BeautifulSoup parsing) are opaque
  collaborators: their numeric results are carried as fields of the file
  records (`digest`, `pdfPages`, `bmark`) or passed as a function parameter
  (`sha`); the repository code under verification only formats and compares
  those results, and that formatting/comparison logic is embedded exactly.
* A raised exception inside a `try` block that the source converts to a
  sentinel (`None` hash, page count `0`, empty content) is modelled by the
  corresponding `Option`/empty value.
-/

/-- Lowercase hexadecimal digit character for a value below 16,
as Python produces in `str(imagehash.average_hash(img))` and
`hashlib.md5(...).hexdigest()`. -/
def hexDigitChar (n : Nat) : Char :=
  if n < 10 then Char.ofNat (48 + n) else Char.ofNat (87 + n)

/-- Fixed-width hexadecimal rendering of a natural number, most significant
digit first; width 16 models the string form of a 64-bit average hash and
width 32 models an MD5 hexdigest. -/
def hexChars : Nat → Nat → List Char
  | 0, _ => []
  | w + 1, h => hexChars w (h / 16) ++ [hexDigitChar (h % 16)]

/-- Fixed-width base-2 digit list of a natural number, most significant bit
first (used to state bit-level Hamming distance of 64-bit hashes). -/
def bitList : Nat → Nat → List Nat
  | 0, _ => []
  | w + 1, h => bitList w (h / 2) ++ [h % 2]

/-- Bit-level Hamming distance of two `w`-bit values. -/
def bitHam (w a b : Nat) : Nat :=
  ((bitList w a).zip (bitList w b)).countP (fun p => p.1 != p.2)

/-- Character-level Hamming distance, the comparison the source performs:
`sum(c1 != c2 for c1, c2 in zip(file_hash, existing_hash))`. -/
def charHam (a b : List Char) : Nat :=
  (a.zip b).countP (fun p => p.1 != p.2)

/-- Lowercasing of a string, as Python `str.lower()` on the ASCII
extension and content strings this program handles. -/
def strToLower (s : String) : String :=
  String.mk (s.data.map Char.toLower)

theorem hexChars_length (w : Nat) : ∀ h : Nat, (hexChars w h).length = w := by
  induction w with
  | zero => intro h; rfl
  | succ w ih =>
      intro h
      simp [hexChars, ih]

/-! ## Image sorter (`sort_image.py`) -/

/-- Extension set `FileSorter.image_extensions`. -/
def imageExtensions : List String :=
  [".jpg", ".jpeg", ".png", ".gif", ".bmp", ".webp", ".svg", ".tiff", ".tif", ".heic"]

/-- A file record for the image sorter.  `digest` is the value produced by
the external hash collaborator on this file's content: the 64-bit
`imagehash.average_hash` integer for image files, the 128-bit MD5 state
(over size and sampled content) for other files; `none` models any
exception while reading/decoding (the source's `except` branch returning a
`None` hash). -/
structure IFile where
  path : String
  suffix : String
  digest : Option Nat
deriving DecidableEq, Repr

/-- The test `file_path.suffix.lower() in self.image_extensions`. -/
def isImageFile (f : IFile) : Bool :=
  imageExtensions.contains (strToLower f.suffix)

/-- `FileSorter.compute_file_hash`: returns the path paired with the hash
string — `str(imagehash.average_hash(img))` (16 hex characters) for images,
`md5(...).hexdigest()` (32 hex characters) otherwise, `none` on error. -/
def computeFileHashI (f : IFile) : String × Option (List Char) :=
  match f.digest with
  | none => (f.path, none)
  | some d =>
      (f.path, some (if isImageFile f then hexChars 16 d else hexChars 32 d))

/-- State of `FileSorter.find_duplicates`: the insertion-ordered
`hash_dict` (hash string → first-seen path) and `duplicates`
(hash string → list of later matching paths). -/
structure IState where
  hd : List (List Char × String)
  dups : List (List Char × List String)
deriving DecidableEq, Repr

/-- `duplicates.setdefault(key, []).append(path)` on an insertion-ordered
dictionary. -/
def addDup {κ : Type} [BEq κ] (d : List (κ × List String)) (k : κ) (p : String) :
    List (κ × List String) :=
  if d.any (fun e => e.1 == k) = true then
    d.map (fun e => cond (e.1 == k) (e.1, e.2 ++ [p]) e)
  else
    d ++ [(k, [p])]

/-- The inner scan of `find_duplicates` for an image file: iterate over the
keys of `hash_dict` in insertion order; on the first key of equal length
whose character-level Hamming distance from `fh` is within the threshold,
stop and return that key. -/
def findSimilarKey (fh : List Char) (t : Nat) : List (List Char × String) → Option (List Char)
  | [] => none
  | (h, _) :: rest =>
      if h.length = fh.length ∧ charHam fh h ≤ t then some h
      else findSimilarKey fh t rest

/-- One iteration of the loop body of `FileSorter.find_duplicates`. -/
def imgStep (t : Nat) (st : IState) (f : IFile) : IState :=
  match computeFileHashI f with
  | (_, none) => st
  | (p, some fh) =>
      if isImageFile f then
        match findSimilarKey fh t st.hd with
        | some ex => { st with dups := addDup st.dups ex p }
        | none => { st with hd := st.hd ++ [(fh, p)] }
      else
        if (List.lookup fh st.hd).isSome then
          { st with dups := addDup st.dups fh p }
        else
          { st with hd := st.hd ++ [(fh, p)] }

/-- `FileSorter.find_duplicates` over a file list (the source returns the
`duplicates` dictionary; we also keep `hash_dict`, which holds each group's
first-seen canonical member). -/
def findDuplicatesI (t : Nat) (files : List IFile) : IState :=
  files.foldl (imgStep t) ⟨[], []⟩

/-- Whether two paths land in the same duplicate group: some canonical hash
in `hash_dict` whose member list (first-seen owner followed by the entries
of `duplicates` under that hash) contains both. -/
def sameGrouped (st : IState) (p q : String) : Bool :=
  st.hd.any (fun e =>
    let mems := e.2 :: ((List.lookup e.1 st.dups).getD [])
    mems.contains p && mems.contains q)

/-- The duplicate-path set built by `main` in `sort_image.py`: for each
entry of the `duplicates` dictionary, only when the list has more than one
element, every element after the first is slated for deletion. -/
def imageDuplicatePaths (t : Nat) (files : List IFile) : List String :=
  (findDuplicatesI t files).dups.foldl
    (fun acc e => if e.2.length > 1 then acc ++ e.2.drop 1 else acc) []

/-- The unique-file set built by `main` in `sort_image.py`:
`{f for f in files if f not in duplicate_paths}` (these are the files that
get relocated by `organize_files`). -/
def imageUniquePaths (t : Nat) (files : List IFile) : List String :=
  (files.filter (fun f => !((imageDuplicatePaths t files).contains f.path))).map (fun f => f.path)

/-! ## Document sorter (`sort_document.py`) -/

/-- `DocumentSorter.binary_formats`. -/
def binaryFormats : List String :=
  [".doc", ".rtf", ".docx", ".odt", ".pdf", ".pages",
   ".xls", ".xlsx", ".xlsm", ".ods", ".numbers",
   ".key", ".ppt", ".pptx", ".odp", ".keynote"]

/-- `DocumentSorter.category_mapping`.  The source dictionary literal lists
`.rtf` twice (`documents` then `notes`); in Python the later entry wins, so
the resulting dictionary maps `.rtf` to `notes`, which is what this
association list records. -/
def categoryMapping : List (String × String) :=
  [(".doc", "documents"), (".docx", "documents"), (".pages", "documents"),
   (".odt", "documents"), (".rtf", "notes"),
   (".xls", "spreadsheets"), (".xlsx", "spreadsheets"), (".numbers", "spreadsheets"),
   (".ods", "spreadsheets"), (".csv", "spreadsheets"),
   (".ppt", "presentations"), (".pptx", "presentations"), (".key", "presentations"),
   (".odp", "presentations"),
   (".txt", "notes"), (".md", "notes"),
   (".html", "web"), (".htm", "web"), (".mht", "web"), (".url", "web"),
   (".webloc", "web"),
   (".zip", "archives"), (".rar", "archives"), (".7z", "archives"),
   (".tar", "archives"), (".gz", "archives"), (".bz2", "archives"),
   (".jpg", "images"), (".jpeg", "images"), (".png", "images"), (".gif", "images"),
   (".bmp", "images"), (".tiff", "images"), (".webp", "images"),
   (".mp3", "audio"), (".wav", "audio"), (".aac", "audio"), (".m4a", "audio"),
   (".ogg", "audio"), (".flac", "audio"),
   (".mp4", "video"), (".mov", "video"), (".avi", "video"), (".mkv", "video"),
   (".wmv", "video"), (".flv", "video"),
   (".py", "code"), (".js", "code"), (".java", "code"), (".cpp", "code"),
   (".c", "code"), (".h", "code"), (".css", "code"), (".php", "code"),
   (".rb", "code"), (".swift", "code"), (".go", "code"), (".rs", "code"),
   (".json", "config"), (".xml", "config"), (".yaml", "config"), (".yml", "config"),
   (".ini", "config"), (".conf", "config"), (".env", "config"),
   (".sql", "database"), (".db", "database"), (".sqlite", "database"),
   (".sqlite3", "database")]

/-- A file record for the document sorter.  `content` is what
`read_file_content` yields for this file: the decoded text for text-like
files, the hexadecimal encoding of the raw bytes for binary formats, and
`""` for an unreadable/empty file (the source's failure branches all return
the empty string).  `pdfPages` is the external PDF parser's result (`none`
models a parse failure, the source's `except` branch).  `bmark` records the
outcome of the external markup inspection performed by
`is_bookmark_file` (BeautifulSoup parsing plus the filename heuristic). -/
structure DFile where
  path : String
  suffix : String
  content : String
  pdfPages : Option Nat
  bmark : Bool
deriving DecidableEq, Repr

/-- `DocumentSorter.get_pdf_page_count`: the parser's page count, or `0`
when parsing raises. -/
def getPdfPageCount (f : DFile) : Nat :=
  f.pdfPages.getD 0

/-- Outcome of `DocumentSorter.is_bookmark_file` (external content
inspection, carried on the record). -/
def isBookmarkFile (f : DFile) : Bool :=
  f.bmark

/-- `DocumentSorter.get_file_category`. -/
def getFileCategory (f : DFile) : String :=
  let ext := strToLower f.suffix
  if ext = ".pdf" then
    if getPdfPageCount f > 5 then "ebooks" else "pdfs"
  else if ext = ".html" ∨ ext = ".htm" ∨ ext = ".url" ∨ ext = ".webloc" then
    if isBookmarkFile f then "bookmarks" else "web"
  else
    (List.lookup ext categoryMapping).getD "other"

/-- Python whitespace as recognised by `str.split()` on the ASCII range. -/
def isPySpace (c : Char) : Bool :=
  c = ' ' || c = '\t' || c = '\n' || c = '\r' || c = '\x0b' || c = '\x0c'

/-- `DocumentSorter.normalize_content`:
`''.join(content.split()).lower()` — drop all whitespace, lowercase. -/
def normalizeContent (s : String) : String :=
  String.mk ((s.data.filter (fun c => !(isPySpace c))).map Char.toLower)

/-- `DocumentSorter.compute_file_hash`, parametric in the external SHA-256
hex digest function `sha`: an empty (= unreadable) content gives no
signature; binary formats use the hex content itself; text files hash the
normalized content. -/
def computeDocHash (sha : String → String) (f : DFile) : String × Option String :=
  if f.content = "" then (f.path, none)
  else if binaryFormats.contains (strToLower f.suffix) then (f.path, some f.content)
  else (f.path, some (sha (normalizeContent f.content)))

/-- State of `DocumentSorter.find_duplicates`. -/
structure DState where
  hd : List (String × String)
  dups : List (String × List String)
deriving DecidableEq, Repr

/-- One iteration of the loop body of `DocumentSorter.find_duplicates`. -/
def docStep (sha : String → String) (st : DState) (f : DFile) : DState :=
  match computeDocHash sha f with
  | (_, none) => st
  | (p, some h) =>
      if (List.lookup h st.hd).isSome then
        { st with dups := addDup st.dups h p }
      else
        { st with hd := st.hd ++ [(h, p)] }

/-- `DocumentSorter.find_duplicates` over a file list. -/
def findDuplicatesD (sha : String → String) (files : List DFile) : DState :=
  files.foldl (docStep sha) ⟨[], []⟩

/-- Membership of a path in the duplicate group keyed by hash `h` (the
first-seen owner recorded in `hash_dict`, or one of the later arrivals
appended to `duplicates[h]`). -/
def inGroupD (st : DState) (h p : String) : Prop :=
  List.lookup h st.hd = some p ∨ p ∈ (List.lookup h st.dups).getD []

/-- One iteration of the unique-file scan of `main` in `sort_document.py`:
skip a file with no signature, and collect the file (and its hash) only
when the hash was not seen before.  The state is
`(unique_files, processed_hashes)`. -/
def docScanStep (sha : String → String) (st : List String × List String) (f : DFile) :
    List String × List String :=
  match computeDocHash sha f with
  | (_, none) => st
  | (p, some h) =>
      if st.2.contains h then st else (st.1 ++ [p], st.2 ++ [h])

/-- The unique-file scan of `main` in `sort_document.py`: returns the
relocation set `unique_files` (as paths) and `processed_hashes`. -/
def docMainScan (sha : String → String) (files : List DFile) : List String × List String :=
  files.foldl (docScanStep sha) ([], [])

/-! ## Batch allocator -/

/-- Occupancy of the batch folder with index `i` (a missing folder is
empty): the in-memory image of `sum(1 for _ in folder.glob(star))`. -/
def occ : List Nat → Nat → Nat
  | [], _ => 0
  | c :: _, 0 => c
  | _ :: rest, i + 1 => occ rest i

theorem occ_eq_zero_of_le (counts : List Nat) :
    ∀ i : Nat, counts.length ≤ i → occ counts i = 0 := by
  induction counts with
  | nil => intro i _; rfl
  | cons c rest ih =>
      intro i hi
      cases i with
      | zero => simp at hi
      | succ j =>
          simp only [List.length_cons, Nat.succ_le_succ_iff] at hi
          exact ih j hi

/-- The loop of `get_next_batch_folder` (both sorters): starting from the
current folder index, advance while the current folder is full, and return
the first index whose occupancy is below capacity.  The loop in the source
terminates only when the capacity is positive, which the hypothesis `hm`
records. -/
def nextBatchNum (counts : List Nat) (maxF : Nat) (hm : 0 < maxF) (cur : Nat) : Nat :=
  if occ counts cur < maxF then cur
  else nextBatchNum counts maxF hm (cur + 1)
termination_by counts.length - cur
decreasing_by
  have hlt : cur < counts.length := by
    by_contra hc
    have h0 : occ counts cur = 0 := occ_eq_zero_of_le counts cur (Nat.le_of_not_lt hc)
    omega
  omega

/-- Extend the occupancy table with empty folders up to length `m`. -/
def padCounts (l : List Nat) (m : Nat) : List Nat :=
  l ++ List.replicate (m - l.length) 0

/-- Write position `i` of the occupancy table. -/
def setOcc : List Nat → Nat → Nat → List Nat
  | [], _, _ => []
  | _ :: rest, 0, v => v :: rest
  | c :: rest, i + 1, v => c :: setOcc rest i v

/-- Record one file placed in folder `n`. -/
def bump (counts : List Nat) (n : Nat) : List Nat :=
  setOcc (padCounts counts (n + 1)) n (occ counts n + 1)

/-- Place one file: find the first non-full folder from the current index
(`get_next_batch_folder`), put the file there, and remember the index. -/
def placeOne (maxF : Nat) (hm : 0 < maxF) (st : Nat × List Nat) : Nat × List Nat :=
  let n := nextBatchNum st.2 maxF hm st.1
  (n, bump st.2 n)

/-- Place `k` files in sequence. -/
def placeAll (maxF : Nat) (hm : 0 < maxF) : Nat → Nat × List Nat → Nat × List Nat
  | 0, st => st
  | k + 1, st => placeAll maxF hm k (placeOne maxF hm st)

/-- The inner loop of `DocumentSorter.organize_files` over one category's
files: each file is assigned the folder returned by
`get_next_batch_folder` (which also leaves `current_folder_num` at that
index) and recorded in the occupancy table; returns the list of
(batch index, filename) assignments together with the final
(counter, occupancy) state. -/
def allocFold (maxF : Nat) (hm : 0 < maxF) : List String → Nat × List Nat →
    List (Nat × String) × (Nat × List Nat)
  | [], st => ([], st)
  | name :: rest, st =>
      let n := nextBatchNum st.2 maxF hm st.1
      let res := allocFold maxF hm rest (n, bump st.2 n)
      ((n, name) :: res.1, res.2)

/-- The category loop of `DocumentSorter.organize_files`: each group is a
category name with its own pre-existing occupancy table (the folders under
`dest_base_dir / category` on disk) and its file names.  The single shared
counter `self.current_folder_num` is threaded from one category to the
next, but the loop body begins with `self.current_folder_num = 1`, so the
incoming counter value (`cur`) is discarded and every category's
allocation starts at index 1 over its own table — that assignment is the
reset this argument models. -/
def docOrganizeFrom (maxF : Nat) (hm : 0 < maxF) :
    Nat → List (String × List Nat × List String) → List (String × Nat × String)
  | _, [] => []
  | _, g :: rest =>
      ((allocFold maxF hm g.2.2 (1, g.2.1)).1).map (fun a => (g.1, a.1, a.2))
        ++ docOrganizeFrom maxF hm (allocFold maxF hm g.2.2 (1, g.2.1)).2.1 rest

/-! ## Destination paths -/

/-- Decimal digit character. -/
def decDigitChar (n : Nat) : Char :=
  Char.ofNat (48 + n)

/-- Decimal digit list, most significant digit first, with a fuel argument
making the recursion structural; `n / 10 < n` keeps `n` itself a
sufficient fuel, so the exhausted-fuel branch is reached only with a
single-digit remainder. -/
def decDigitsAux : Nat → Nat → List Char
  | 0, n => [decDigitChar n]
  | fuel + 1, n =>
      if n < 10 then [decDigitChar n]
      else decDigitsAux fuel (n / 10) ++ [decDigitChar (n % 10)]

/-- Decimal digit list of a natural number, most significant digit first,
as Python renders an integer. -/
def decDigits (n : Nat) : List Char :=
  decDigitsAux n n

/-- Left-pad a character list with zeros to width `w`, as the format
specifier `03d` does (wider inputs are kept unchanged). -/
def zeroPadC (w : Nat) (s : List Char) : List Char :=
  List.replicate (w - s.length) '0' ++ s

/-- The folder name `f"batch_{n:03d}"`. -/
def batchName (n : Nat) : String :=
  "batch_" ++ String.mk (zeroPadC 3 (decDigits n))

/-- Document sorter: `self.dest_base_dir / category` (component form). -/
def docCategoryDir (base : List String) (cat : String) : List String :=
  base ++ [cat]

/-- Document sorter: `category_dir / f"batch_{n:03d}"`. -/
def docBatchFolder (base : List String) (cat : String) (n : Nat) : List String :=
  docCategoryDir base cat ++ [batchName n]

/-- Document sorter: full destination `dest_folder / file_path.name`. -/
def docDest (base : List String) (cat : String) (n : Nat) (fname : String) : List String :=
  docBatchFolder base cat n ++ [fname]

/-- Image sorter: `self.dest_base_dir / f"batch_{n:03d}"` (no category
level exists in this variant). -/
def imgBatchFolder (base : List String) (n : Nat) : List String :=
  base ++ [batchName n]

/-- Image sorter: full destination `dest_folder / file_path.name`. -/
def imgDest (base : List String) (n : Nat) (fname : String) : List String :=
  imgBatchFolder base n ++ [fname]

/-! ## Cleanup of the source tree -/

/-- A directory in the source tree: the files directly inside it and its
named subdirectories. -/
inductive DirTree where
  | node : List String → List (String × DirTree) → DirTree

/-- Files directly inside a directory. -/
def DirTree.filesOf : DirTree → List String
  | .node fs _ => fs

/-- Named subdirectories of a directory. -/
def DirTree.subsOf : DirTree → List (String × DirTree)
  | .node _ subs => subs

/-- The test `not os.listdir(dirpath)`: no files and no subdirectories. -/
def isEmptyNode (t : DirTree) : Bool :=
  t.filesOf.isEmpty && t.subsOf.isEmpty

mutual
/-- The empty-directory sweep of `clean_source_directory`, on one
directory: `os.walk(..., topdown=False)` visits children before their
parent, so each subdirectory is cleaned first and then removed exactly when
its listing is empty at that moment.  The directory this is called on is
itself always kept: in the source the walk `continue`s on the root. -/
def cleanTree : DirTree → DirTree
  | .node fs subs =>
      .node fs ((cleanSubs subs).filter (fun e => !(isEmptyNode e.2)))

/-- Clean each named subdirectory, preserving order. -/
def cleanSubs : List (String × DirTree) → List (String × DirTree)
  | [] => []
  | (n, t) :: rest => (n, cleanTree t) :: cleanSubs rest
end

mutual
/-- A directory subtree contains at least one file somewhere. -/
def containsFile : DirTree → Bool
  | .node fs subs => !fs.isEmpty || containsFileSubs subs

/-- Helper for `containsFile` over the subdirectory list. -/
def containsFileSubs : List (String × DirTree) → Bool
  | [] => false
  | (_, t) :: rest => containsFile t || containsFileSubs rest
end

/-! ## Theorems -/

/-- C8: a `.pdf` file is categorised `ebooks` when its page count exceeds 5
and `pdfs` otherwise, and a PDF parse failure degrades to page count 0 and
hence `pdfs`. -/
theorem pdf_category_by_page_count (f : DFile) (hpdf : strToLower f.suffix = ".pdf") :
    getFileCategory f = (if getPdfPageCount f > 5 then "ebooks" else "pdfs") ∧
    (f.pdfPages = none → getFileCategory f = "pdfs") := by
  constructor
  · simp [getFileCategory, hpdf]
  · intro hn
    simp [getFileCategory, hpdf, getPdfPageCount, hn]

theorem pdf_category_by_page_count_witness :
    strToLower (DFile.mk "x.pdf" ".pdf" "h" none false).suffix = ".pdf" ∧
    getFileCategory ⟨"x.pdf", ".pdf", "h", none, false⟩ = "pdfs" :=
  ⟨by decide,
   (pdf_category_by_page_count ⟨"x.pdf", ".pdf", "h", none, false⟩ (by decide)).2 rfl⟩

/-- C1: evaluation of `main` in `sort_image.py` on a group of exactly two
files with equal perceptual hashes: the `duplicates` dictionary holds a
one-element list for the group, so `main`'s `len(file_list) > 1` guard
fires for neither file — the duplicate-path set is empty and both files
are relocated, contradicting the specified one-survivor policy. -/
theorem image_two_dup_group_bug :
    (findDuplicatesI 0 [⟨"a", ".jpg", some 5⟩, ⟨"b", ".jpg", some 5⟩]).dups
        = [(hexChars 16 5, ["b"])] ∧
    imageDuplicatePaths 0 [⟨"a", ".jpg", some 5⟩, ⟨"b", ".jpg", some 5⟩] = [] ∧
    imageUniquePaths 0 [⟨"a", ".jpg", some 5⟩, ⟨"b", ".jpg", some 5⟩] = ["a", "b"] := by
  decide

/-- C3 counterexample: in `sort_document.py`, a file whose content cannot
be read (modelled by empty content) yields no signature and is then also
skipped by the unique-file scan of `main`, so it is never relocated —
against the claim that such files are relocated like unique files. -/
theorem unreadable_doc_not_relocated_cex :
    (computeDocHash (fun s => s) ⟨"u", ".txt", "", none, false⟩).2 = none ∧
    ¬ ("u" ∈ (docMainScan (fun s => s) [⟨"u", ".txt", "", none, false⟩]).1) := by
  decide

/-- C4 counterexample: three image files a, b, c whose hash strings have
character distances d(a,b)=3, d(a,c)=2, d(b,c)=1.  At threshold 1, c is
grouped with b; at the larger threshold 2, c is captured by a (scanned
first) while b starts its own group — so b and c are grouped at 1 and
separated at 2, refuting monotone coarsening. -/
theorem threshold_monotonicity_cex :
    (1 : Nat) ≤ 2 ∧
    sameGrouped (findDuplicatesI 1
      [⟨"a", ".jpg", some 0⟩, ⟨"b", ".jpg", some 0x1110000000000000⟩,
       ⟨"c", ".jpg", some 0x1100000000000000⟩]) "b" "c" = true ∧
    sameGrouped (findDuplicatesI 2
      [⟨"a", ".jpg", some 0⟩, ⟨"b", ".jpg", some 0x1110000000000000⟩,
       ⟨"c", ".jpg", some 0x1100000000000000⟩]) "b" "c" = false := by
  decide

/-- C6 counterexample: digests 0 and 3 differ in 2 bits but in only 1
hexadecimal character, so at threshold 1 the grouper unites them although
their bit-level Hamming distance exceeds the threshold — the comparison the
code performs is character-level, not bit-level. -/
theorem bit_hamming_cex :
    bitHam 64 0 3 = 2 ∧ ¬ (bitHam 64 0 3 ≤ 1) ∧
    charHam (hexChars 16 0) (hexChars 16 3) = 1 ∧
    sameGrouped (findDuplicatesI 1
      [⟨"a", ".jpg", some 0⟩, ⟨"b", ".jpg", some 3⟩]) "a" "b" = true := by
  decide

/-- C5 counterexample: the image sorter's destination for a file is
`<dest_root>/batch_001/<name>`, which matches no path of the claimed form
`<dest_root>/<category>/batch_NNN/<name>` (the category level is absent in
this variant). -/
theorem image_dest_no_category_cex :
    imgDest ["dest"] 1 "a.jpg" = ["dest", "batch_001", "a.jpg"] ∧
    ¬ ∃ cat n2, imgDest ["dest"] 1 "a.jpg" = ["dest"] ++ [cat, batchName n2, "a.jpg"] := by
  constructor
  · decide
  · rintro ⟨cat, n2, hEq⟩
    have hlen := congrArg List.length hEq
    simp [imgDest, imgBatchFolder] at hlen

/-! ### Batch allocator lemmas -/

theorem occ_append_replicate_zero (l : List Nat) :
    ∀ (i r : Nat), occ (l ++ List.replicate r 0) i = occ l i := by
  induction l with
  | nil =>
      intro i r
      induction r generalizing i with
      | zero => rfl
      | succ r ih =>
          cases i with
          | zero => rfl
          | succ j => simpa [List.replicate, occ] using ih j
  | cons c rest ih =>
      intro i r
      cases i with
      | zero => rfl
      | succ j => simpa [occ] using ih j r

theorem occ_padCounts (l : List Nat) (m : Nat) :
    ∀ i, occ (padCounts l m) i = occ l i := by
  intro i
  simpa [padCounts] using occ_append_replicate_zero l i (m - l.length)

theorem occ_setOcc_self (l : List Nat) :
    ∀ (n v : Nat), n < l.length → occ (setOcc l n v) n = v := by
  induction l with
  | nil => intro n v hn; simp at hn
  | cons c rest ih =>
      intro n v hn
      cases n with
      | zero => rfl
      | succ j =>
          simp only [List.length_cons, Nat.succ_lt_succ_iff] at hn
          simpa [setOcc, occ] using ih j v hn

theorem occ_setOcc_ne (l : List Nat) :
    ∀ (n v i : Nat), i ≠ n → occ (setOcc l n v) i = occ l i := by
  induction l with
  | nil => intro n v i _; rfl
  | cons c rest ih =>
      intro n v i hne
      cases n with
      | zero =>
          cases i with
          | zero => exact absurd rfl hne
          | succ j => rfl
      | succ m =>
          cases i with
          | zero => rfl
          | succ j =>
              have : j ≠ m := fun hjm => hne (by omega)
              simpa [setOcc, occ] using ih m v j this

theorem padCounts_length (l : List Nat) (m : Nat) :
    (padCounts l m).length = l.length + (m - l.length) := by
  simp [padCounts]

theorem occ_bump (counts : List Nat) (n i : Nat) :
    occ (bump counts n) i = if i = n then occ counts n + 1 else occ counts i := by
  by_cases hin : i = n
  · subst hin
    have hlen : i < (padCounts counts (i + 1)).length := by
      rw [padCounts_length]; omega
    simp [bump, occ_setOcc_self _ _ _ hlen]
  · simp [bump, occ_setOcc_ne _ _ _ _ hin, occ_padCounts, hin]

theorem occ_nextBatchNum_lt (counts : List Nat) (maxF : Nat) (hm : 0 < maxF) :
    ∀ cur, occ counts (nextBatchNum counts maxF hm cur) < maxF := by
  have key : ∀ d cur, counts.length - cur ≤ d →
      occ counts (nextBatchNum counts maxF hm cur) < maxF := by
    intro d
    induction d with
    | zero =>
        intro cur hd
        have hcur : counts.length ≤ cur := by omega
        have h0 : occ counts cur = 0 := occ_eq_zero_of_le counts cur hcur
        rw [nextBatchNum]
        simp [h0, hm]
    | succ d ih =>
        intro cur hd
        by_cases hlt : occ counts cur < maxF
        · rw [nextBatchNum]; simp [hlt]
        · rw [nextBatchNum]
          simp only [hlt, if_false]
          have hcl : cur < counts.length := by
            by_contra hc
            have h0 : occ counts cur = 0 :=
              occ_eq_zero_of_le counts cur (Nat.le_of_not_lt hc)
            omega
          exact ih (cur + 1) (by omega)
  intro cur
  exact key (counts.length - cur) cur (Nat.le_refl _)

/-- C2: the batch allocator never lets any folder exceed the capacity:
starting from any occupancy table where every folder holds at most
`maxF` files, after placing any number of files every folder still holds
at most `maxF` files (each placement first finds a folder that is
strictly below capacity and adds exactly one file there). -/
theorem batch_folder_capacity_bound (maxF : Nat) (hm : 0 < maxF) (k : Nat) :
    ∀ (cur : Nat) (counts : List Nat), (∀ i, occ counts i ≤ maxF) →
      ∀ i, occ (placeAll maxF hm k (cur, counts)).2 i ≤ maxF := by
  induction k with
  | zero => intro cur counts hinit i; exact hinit i
  | succ k ih =>
      intro cur counts hinit i
      have hnext : occ counts (nextBatchNum counts maxF hm cur) < maxF :=
        occ_nextBatchNum_lt counts maxF hm cur
      have hstep : ∀ j, occ (bump counts (nextBatchNum counts maxF hm cur)) j ≤ maxF := by
        intro j
        rw [occ_bump]
        by_cases hj : j = nextBatchNum counts maxF hm cur
        · simp [hj]; omega
        · simp [hj]; exact hinit j
      simpa [placeAll, placeOne] using
        ih (nextBatchNum counts maxF hm cur)
          (bump counts (nextBatchNum counts maxF hm cur)) hstep i

theorem batch_folder_capacity_bound_witness :
    0 < 2 ∧ occ (placeAll 2 (by decide) 5 (1, [])).2 3 ≤ 2 :=
  ⟨by decide,
   batch_folder_capacity_bound 2 (by decide) 5 1 [] (fun _ => by simp [occ]) 3⟩

/-! ### Destination-path lemmas -/

theorem decDigitsAux_length_le (k : Nat) :
    ∀ (fuel n : Nat), n ≤ fuel → n < 10 ^ k → (decDigitsAux fuel n).length ≤ max 1 k := by
  induction k with
  | zero =>
      intro fuel n _ hn
      have h1 : n < 1 := by simpa using hn
      have hn0 : n = 0 := by omega
      subst hn0
      cases fuel with
      | zero => simp [decDigitsAux]
      | succ f => simp [decDigitsAux]
  | succ k ih =>
      intro fuel n hfuel hn
      cases fuel with
      | zero =>
          have hz : n = 0 := Nat.le_zero.mp hfuel
          subst hz
          simp [decDigitsAux]
      | succ f =>
          by_cases h10 : n < 10
          · simp [decDigitsAux, h10]
          · have hk1 : 1 ≤ k := by
              by_contra hk
              have hk0 : k = 0 := by omega
              subst hk0
              simp at hn
              omega
            have hdiv : n / 10 ≤ f := by
              have hlt : n / 10 < n := Nat.div_lt_self (by omega) (by omega)
              omega
            have hdivpow : n / 10 < 10 ^ k := by
              have hmul : n < 10 ^ k * 10 := by
                calc n < 10 ^ (k + 1) := hn
                _ = 10 ^ k * 10 := by ring
              exact (Nat.div_lt_iff_lt_mul (by norm_num)).mpr hmul
            have hrec := ih f (n / 10) hdiv hdivpow
            rw [Nat.max_eq_right hk1] at hrec
            rw [Nat.max_eq_right (by omega : 1 ≤ k + 1)]
            have hunfold : decDigitsAux (f + 1) n
                = decDigitsAux f (n / 10) ++ [decDigitChar (n % 10)] := by
              simp [decDigitsAux, h10]
            rw [hunfold, List.length_append]
            simp only [List.length_cons, List.length_nil]
            omega

theorem decDigits_length_le_three (n : Nat) (hn : n ≤ 999) :
    (decDigits n).length ≤ 3 := by
  have h := decDigitsAux_length_le 3 n n (Nat.le_refl n) (by omega)
  simpa [decDigits] using h

theorem batchName_length (n : Nat) (hn : n ≤ 999) :
    (batchName n).length = 9 := by
  have hd := decDigits_length_le_three n hn
  have hmk : (String.mk (zeroPadC 3 (decDigits n))).length = 3 := by
    show (zeroPadC 3 (decDigits n)).length = 3
    rw [zeroPadC, List.length_append, List.length_replicate]
    omega
  rw [batchName, String.length_append, hmk]
  decide

theorem filter_tag_self (cat : String) (l : List (Nat × String)) :
    (l.map (fun a => (cat, a.1, a.2))).filter (fun x => x.1 == cat)
      = l.map (fun a => (cat, a.1, a.2)) := by
  induction l with
  | nil => rfl
  | cons a rest ih => simp [List.filter, ih]

theorem filter_tag_ne (cat cat2 : String) (hne : cat2 ≠ cat) (l : List (Nat × String)) :
    (l.map (fun a => (cat2, a.1, a.2))).filter (fun x => x.1 == cat) = [] := by
  induction l with
  | nil => rfl
  | cons a rest ih => simp [List.filter, beq_eq_false_iff_ne.mpr hne, ih]

theorem filter_eq_nil_of_tags (cat : String) (L : List (String × Nat × String))
    (h : ∀ x ∈ L, x.1 ≠ cat) : L.filter (fun x => x.1 == cat) = [] := by
  induction L with
  | nil => rfl
  | cons a rest ih =>
      simp only [List.filter, beq_eq_false_iff_ne.mpr (h a (List.mem_cons_self _ _))]
      exact ih (fun x hx => h x (List.mem_cons_of_mem _ hx))

theorem docOrganizeFrom_tag_mem (maxF : Nat) (hm : 0 < maxF) :
    ∀ (groups : List (String × List Nat × List String)) (cur : Nat)
      (x : String × Nat × String), x ∈ docOrganizeFrom maxF hm cur groups →
      x.1 ∈ groups.map (fun g => g.1) := by
  intro groups
  induction groups with
  | nil => intro cur x hx; simp [docOrganizeFrom] at hx
  | cons g rest ih =>
      intro cur x hx
      rw [docOrganizeFrom] at hx
      rw [List.mem_append] at hx
      rw [List.map_cons]
      cases hx with
      | inl hhead =>
          rw [List.mem_map] at hhead
          obtain ⟨a, _, ha⟩ := hhead
          rw [← ha]
          exact List.mem_cons_self _ _
      | inr htail => exact List.mem_cons_of_mem _ (ih _ x htail)

theorem docOrganizeFrom_per_category (maxF : Nat) (hm : 0 < maxF) :
    ∀ (groups : List (String × List Nat × List String)),
      (groups.map (fun g => g.1)).Nodup →
      ∀ (cur : Nat) (cat : String) (counts : List Nat) (names : List String),
        (cat, (counts, names)) ∈ groups →
        (docOrganizeFrom maxF hm cur groups).filter (fun x => x.1 == cat)
          = ((allocFold maxF hm names (1, counts)).1).map (fun a => (cat, a.1, a.2)) := by
  intro groups
  induction groups with
  | nil => intro _ cur cat counts names hmem; simp at hmem
  | cons g rest ih =>
      intro hnd cur cat counts names hmem
      obtain ⟨gc, gcounts, gnames⟩ := g
      rw [List.map_cons, List.nodup_cons] at hnd
      rw [docOrganizeFrom, List.filter_append]
      rw [List.mem_cons] at hmem
      cases hmem with
      | inl heq =>
          rw [Prod.mk.injEq] at heq
          obtain ⟨h1, h2⟩ := heq
          rw [Prod.mk.injEq] at h2
          obtain ⟨h2a, h2b⟩ := h2
          subst h1
          subst h2a
          subst h2b
          have hrec : (docOrganizeFrom maxF hm
              ((allocFold maxF hm names (1, counts)).2.1) rest).filter
                (fun x => x.1 == cat) = [] := by
            apply filter_eq_nil_of_tags
            intro x hx hxc
            apply hnd.1
            rw [← hxc]
            exact docOrganizeFrom_tag_mem maxF hm rest _ x hx
          rw [hrec, List.append_nil]
          exact filter_tag_self cat _
      | inr htail =>
          have hcat_tail : cat ∈ rest.map (fun g => g.1) :=
            List.mem_map.mpr ⟨(cat, (counts, names)), htail, rfl⟩
          have hne : gc ≠ cat := fun h => hnd.1 (h ▸ hcat_tail)
          rw [filter_tag_ne cat gc hne, List.nil_append]
          exact ih hnd.2 _ cat counts names htail

/-- C5 (amended): in the document variant a destination path is
`<dest_root>/<category>/batch_<NNN>/<filename>`; in the image variant it is
`<dest_root>/batch_<NNN>/<filename>` with no category level; the filename
is the last component verbatim, and for batch indices up to 999 the folder
name is `batch_` followed by exactly three zero-padded decimal digits.
Moreover batch numbering is independent per category: in the category loop
of `organize_files` the shared counter is reset to 1 at each category, so
the assignments the full run gives one category (with any incoming counter
value and any other categories around it) are exactly the assignments of
running that category alone over its own occupancy table. -/
theorem dest_path_shape_amended (base : List String) (cat fname : String) (n : Nat)
    (hn : n ≤ 999) :
    docDest base cat n fname = base ++ [cat, batchName n, fname] ∧
    imgDest base n fname = base ++ [batchName n, fname] ∧
    (batchName n).length = 9 ∧
    (∀ (maxF : Nat) (hm : 0 < maxF) (cur : Nat)
       (groups : List (String × List Nat × List String)),
       (groups.map (fun g => g.1)).Nodup →
       ∀ (counts : List Nat) (names : List String),
         (cat, (counts, names)) ∈ groups →
         (docOrganizeFrom maxF hm cur groups).filter (fun x => x.1 == cat)
           = ((allocFold maxF hm names (1, counts)).1).map (fun a => (cat, a.1, a.2))) := by
  refine ⟨?_, ?_, batchName_length n hn, ?_⟩
  · simp [docDest, docBatchFolder, docCategoryDir]
  · simp [imgDest, imgBatchFolder]
  · intro maxF hm cur groups hnd counts names hmem
    exact docOrganizeFrom_per_category maxF hm groups hnd cur cat counts names hmem

theorem dest_path_shape_amended_witness :
    (1 : Nat) ≤ 999 ∧
    docDest ["d"] "pdfs" 1 "x.pdf" = ["d"] ++ ["pdfs", batchName 1, "x.pdf"] ∧
    ((([("pdfs", ([], ["x.pdf"])), ("notes", ([], ["y.txt"]))] :
        List (String × List Nat × List String)).map (fun g => g.1)).Nodup) ∧
    (docOrganizeFrom 2 (by decide) 7
        [("pdfs", ([], ["x.pdf"])), ("notes", ([], ["y.txt"]))]).filter
          (fun x => x.1 == "pdfs")
      = ((allocFold 2 (by decide) ["x.pdf"] (1, [])).1).map (fun a => ("pdfs", a.1, a.2)) :=
  ⟨by decide,
   (dest_path_shape_amended ["d"] "pdfs" "x.pdf" 1 (by decide)).1,
   by decide,
   (dest_path_shape_amended ["d"] "pdfs" "x.pdf" 1 (by decide)).2.2.2
     2 (by decide) 7 [("pdfs", ([], ["x.pdf"])), ("notes", ([], ["y.txt"]))]
     (by decide) [] ["x.pdf"] (by decide)⟩

/-! ### Cleanup lemmas -/

mutual
theorem containsFile_clean (t : DirTree) (h : containsFile t = true) :
    isEmptyNode (cleanTree t) = false := by
  cases t with
  | node fs subs =>
      rw [containsFile] at h
      rw [Bool.or_eq_true] at h
      cases h with
      | inl hfs =>
          rw [Bool.not_eq_true'] at hfs
          simp [cleanTree, isEmptyNode, DirTree.filesOf, DirTree.subsOf, hfs]
      | inr hsub =>
          have hne := containsFileSubs_clean subs hsub
          cases hf : (cleanSubs subs).filter (fun e => !(isEmptyNode e.2)) with
          | nil => exact absurd hf hne
          | cons a l =>
              rw [cleanTree, hf]
              simp [isEmptyNode, DirTree.filesOf, DirTree.subsOf]

theorem containsFileSubs_clean (subs : List (String × DirTree))
    (h : containsFileSubs subs = true) :
    (cleanSubs subs).filter (fun e => !(isEmptyNode e.2)) ≠ [] := by
  cases subs with
  | nil => simp [containsFileSubs] at h
  | cons e rest =>
      match e, h with
      | (nm, t), h =>
          rw [containsFileSubs] at h
          rw [Bool.or_eq_true] at h
          cases h with
          | inl hhead =>
              have hne := containsFile_clean t hhead
              simp [cleanSubs, List.filter, hne]
          | inr htail =>
              have hne := containsFileSubs_clean rest htail
              simp only [cleanSubs, List.filter]
              cases hcase : !(isEmptyNode (cleanTree t)) with
              | true => simp
              | false => simpa using hne
end

theorem mem_cleanSubs (nm : String) (s : DirTree) :
    ∀ subs : List (String × DirTree), (nm, s) ∈ subs → (nm, cleanTree s) ∈ cleanSubs subs := by
  intro subs
  induction subs with
  | nil => intro h; simp at h
  | cons e rest ih =>
      intro h
      rw [List.mem_cons] at h
      cases h with
      | inl heq =>
          cases e with
          | mk nm2 t2 =>
              rw [Prod.mk.injEq] at heq
              rw [cleanSubs, heq.1, heq.2]
              exact List.mem_cons_self _ _
      | inr htail =>
          cases e with
          | mk nm2 t2 =>
              rw [cleanSubs]
              exact List.mem_cons_of_mem _ (ih htail)

/-- C9: the bottom-up empty-directory sweep keeps the root's own listing
intact (the walk skips the root), a subdirectory that still contains a
file anywhere is never empty after cleaning, and any subdirectory that is
non-empty when its turn comes (bottom-up, after its own cleaning) is
retained in its parent — only directories whose listing is empty at
removal time are dropped. -/
theorem cleanup_preserves_nonempty (t : DirTree) (nm : String) (s : DirTree)
    (hmem : (nm, s) ∈ t.subsOf) :
    (cleanTree t).filesOf = t.filesOf ∧
    (containsFile s = true → isEmptyNode (cleanTree s) = false) ∧
    (isEmptyNode (cleanTree s) = false → (nm, cleanTree s) ∈ (cleanTree t).subsOf) := by
  refine ⟨?_, fun hc => containsFile_clean s hc, fun hne => ?_⟩
  · cases t with
    | node fs subs => rfl
  · cases t with
    | node fs subs =>
        have hmem2 : (nm, cleanTree s) ∈ cleanSubs subs :=
          mem_cleanSubs nm s subs (by simpa [DirTree.subsOf] using hmem)
        show (nm, cleanTree s) ∈ (cleanSubs subs).filter (fun e => !(isEmptyNode e.2))
        rw [List.mem_filter]
        exact ⟨hmem2, by simp [hne]⟩

theorem cleanup_preserves_nonempty_witness :
    ("sub", DirTree.node ["g"] []) ∈ (DirTree.node ["f"] [("sub", DirTree.node ["g"] [])]).subsOf ∧
    (cleanTree (DirTree.node ["f"] [("sub", DirTree.node ["g"] [])])).filesOf
      = (DirTree.node ["f"] [("sub", DirTree.node ["g"] [])]).filesOf :=
  ⟨by simp [DirTree.subsOf],
   (cleanup_preserves_nonempty (DirTree.node ["f"] [("sub", DirTree.node ["g"] [])])
      "sub" (DirTree.node ["g"] []) (by simp [DirTree.subsOf])).1⟩

/-! ### Association-list lemmas -/

theorem lookup_append_of_isSome {α β : Type} [BEq α] (k : α) (l1 l2 : List (α × β))
    (h : (List.lookup k l1).isSome) :
    List.lookup k (l1 ++ l2) = List.lookup k l1 := by
  induction l1 with
  | nil => simp [List.lookup] at h
  | cons e rest ih =>
      cases e with
      | mk a b =>
          cases hk : k == a with
          | true => simp [List.lookup, hk]
          | false =>
              rw [List.lookup] at h
              rw [hk] at h
              simp only [List.cons_append, List.lookup, hk]
              exact ih h

theorem lookup_append_of_none {α β : Type} [BEq α] (k : α) (l1 l2 : List (α × β))
    (h : List.lookup k l1 = none) :
    List.lookup k (l1 ++ l2) = List.lookup k l2 := by
  induction l1 with
  | nil => simp
  | cons e rest ih =>
      cases e with
      | mk a b =>
          cases hk : k == a with
          | true =>
              rw [List.lookup] at h
              rw [hk] at h
              simp at h
          | false =>
              rw [List.lookup] at h
              rw [hk] at h
              simp only [List.cons_append, List.lookup, hk]
              exact ih h

theorem lookup_mem {α β : Type} [BEq α] [LawfulBEq α] (k : α) (l : List (α × β)) (v : β)
    (h : List.lookup k l = some v) : (k, v) ∈ l := by
  induction l with
  | nil => simp [List.lookup] at h
  | cons e rest ih =>
      cases e with
      | mk a b =>
          cases hk : k == a with
          | true =>
              rw [List.lookup] at h
              rw [hk] at h
              simp only [Option.some.injEq] at h
              have hka : k = a := eq_of_beq hk
              rw [List.mem_cons]
              left
              rw [hka, h]
          | false =>
              rw [List.lookup] at h
              rw [hk] at h
              exact List.mem_cons_of_mem _ (ih h)

theorem lookup_map_addDup {α : Type} [BEq α] [LawfulBEq α]
    (d : List (α × List String)) (k k2 : α) (p : String) :
    List.lookup k2 (d.map (fun e => cond (e.1 == k) (e.1, e.2 ++ [p]) e)) =
      (List.lookup k2 d).map (fun l => cond (k2 == k) (l ++ [p]) l) := by
  induction d with
  | nil => rfl
  | cons e rest ih =>
      cases e with
      | mk a b =>
          cases hka : k2 == a with
          | true =>
              have hk2a : k2 = a := eq_of_beq hka
              subst hk2a
              cases hak : k2 == k with
              | true => simp [List.lookup, hak, hka]
              | false => simp [List.lookup, hak, hka]
          | false =>
              cases hak : a == k with
              | true => simp [List.lookup, hka, hak, ih]
              | false => simp [List.lookup, hka, hak, ih]

theorem any_key_eq_lookup_isSome {α β : Type} [BEq α] [LawfulBEq α]
    (d : List (α × β)) (k : α) :
    d.any (fun e => e.1 == k) = (List.lookup k d).isSome := by
  induction d with
  | nil => rfl
  | cons e rest ih =>
      cases e with
      | mk a b =>
          cases hak : a == k with
          | true =>
              have hka : (k == a) = true := by
                have : a = k := eq_of_beq hak
                subst this
                exact beq_self_eq_true a
              simp [List.lookup, hak, hka]
          | false =>
              have hka : (k == a) = false := by
                cases hcase : k == a with
                | false => rfl
                | true =>
                    have : k = a := eq_of_beq hcase
                    subst this
                    rw [beq_self_eq_true] at hak
                    exact absurd hak (by simp)
              simp [List.lookup, hak, hka, ih]

theorem addDup_lookup_self {α : Type} [BEq α] [LawfulBEq α]
    (d : List (α × List String)) (k : α) (p : String) :
    p ∈ (List.lookup k (addDup d k p)).getD [] := by
  rw [addDup]
  by_cases hany : d.any (fun e => e.1 == k) = true
  · simp only [hany, if_true]
    rw [lookup_map_addDup]
    rw [any_key_eq_lookup_isSome] at hany
    cases hl : List.lookup k d with
    | none => rw [hl] at hany; simp at hany
    | some l => simp [hl]
  · simp only [hany, Bool.false_eq_true, if_false]
    have hnone : List.lookup k d = none := by
      rw [any_key_eq_lookup_isSome] at hany
      cases hl : List.lookup k d with
      | none => rfl
      | some l => rw [hl] at hany; simp at hany
    rw [lookup_append_of_none k d _ hnone]
    simp [List.lookup]

theorem addDup_lookup_mono {α : Type} [BEq α] [LawfulBEq α]
    (d : List (α × List String)) (k k2 : α) (p q : String)
    (hq : q ∈ (List.lookup k2 d).getD []) :
    q ∈ (List.lookup k2 (addDup d k p)).getD [] := by
  rw [addDup]
  by_cases hany : d.any (fun e => e.1 == k) = true
  · simp only [hany, if_true]
    rw [lookup_map_addDup]
    cases hl : List.lookup k2 d with
    | none => rw [hl] at hq; simp at hq
    | some l =>
        rw [hl] at hq
        simp only [Option.getD_some] at hq
        cases hkk : k2 == k with
        | true => simp [hkk, List.mem_append, hq]
        | false => simpa [hkk] using hq
  · simp only [hany, Bool.false_eq_true, if_false]
    cases hl : List.lookup k2 d with
    | none => rw [hl] at hq; simp at hq
    | some l =>
        have hsome : (List.lookup k2 d).isSome := by rw [hl]; rfl
        rw [lookup_append_of_isSome k2 d _ hsome, hl]
        rw [hl] at hq
        exact hq

/-! ### Document grouper lemmas -/

theorem computeDocHash_fst (sha : String → String) (f : DFile) :
    (computeDocHash sha f).1 = f.path := by
  rw [computeDocHash]
  split
  · rfl
  · split <;> rfl

theorem computeDocHash_pair (sha : String → String) (f : DFile) :
    computeDocHash sha f = (f.path, (computeDocHash sha f).2) := by
  cases hc : computeDocHash sha f with
  | mk a b =>
      have hfst := computeDocHash_fst sha f
      rw [hc] at hfst
      dsimp only at hfst
      subst hfst
      rfl

theorem docStep_none (sha : String → String) (st : DState) (f : DFile)
    (hn : (computeDocHash sha f).2 = none) : docStep sha st f = st := by
  rw [docStep, computeDocHash_pair sha f, hn]

theorem docStep_some_hit (sha : String → String) (st : DState) (f : DFile) (h : String)
    (hh : (computeDocHash sha f).2 = some h) (hl : (List.lookup h st.hd).isSome) :
    docStep sha st f = { st with dups := addDup st.dups h f.path } := by
  rw [docStep, computeDocHash_pair sha f, hh]
  simp [hl]

theorem docStep_some_miss (sha : String → String) (st : DState) (f : DFile) (h : String)
    (hh : (computeDocHash sha f).2 = some h) (hl : ¬ (List.lookup h st.hd).isSome) :
    docStep sha st f = { st with hd := st.hd ++ [(h, f.path)] } := by
  rw [docStep, computeDocHash_pair sha f, hh]
  simp only [Bool.not_eq_true] at hl
  simp [hl]

theorem inGroupD_docStep (sha : String → String) (st : DState) (f : DFile)
    (h p : String) (hin : inGroupD st h p) : inGroupD (docStep sha st f) h p := by
  cases hc : (computeDocHash sha f).2 with
  | none => rw [docStep_none sha st f hc]; exact hin
  | some h2 =>
      by_cases hl : (List.lookup h2 st.hd).isSome
      · rw [docStep_some_hit sha st f h2 hc hl]
        cases hin with
        | inl hi => exact Or.inl hi
        | inr hi => exact Or.inr (addDup_lookup_mono st.dups h2 h f.path p hi)
      · rw [docStep_some_miss sha st f h2 hc hl]
        cases hin with
        | inl hi =>
            left
            have hs : (List.lookup h st.hd).isSome := by rw [hi]; rfl
            rw [lookup_append_of_isSome h st.hd _ hs]
            exact hi
        | inr hi => exact Or.inr hi

theorem inGroupD_docStep_self (sha : String → String) (st : DState) (f : DFile)
    (h : String) (hh : (computeDocHash sha f).2 = some h) :
    inGroupD (docStep sha st f) h f.path := by
  by_cases hl : (List.lookup h st.hd).isSome
  · rw [docStep_some_hit sha st f h hh hl]
    exact Or.inr (addDup_lookup_self st.dups h f.path)
  · rw [docStep_some_miss sha st f h hh hl]
    left
    have hnone : List.lookup h st.hd = none := Option.not_isSome_iff_eq_none.mp hl
    rw [lookup_append_of_none h st.hd _ hnone]
    simp [List.lookup]

theorem inGroupD_foldl_mono (sha : String → String) (fs : List DFile) :
    ∀ (st : DState) (h p : String), inGroupD st h p →
      inGroupD (fs.foldl (docStep sha) st) h p := by
  induction fs with
  | nil => intro st h p hin; exact hin
  | cons g rest ih =>
      intro st h p hin
      exact ih _ h p (inGroupD_docStep sha st g h p hin)

theorem inGroupD_foldl_self (sha : String → String) (fs : List DFile) (f : DFile)
    (hf : f ∈ fs) (h : String) (hh : (computeDocHash sha f).2 = some h) :
    ∀ st : DState, inGroupD (fs.foldl (docStep sha) st) h f.path := by
  induction fs with
  | nil => simp at hf
  | cons g rest ih =>
      intro st
      rw [List.mem_cons] at hf
      cases hf with
      | inl heq =>
          subst heq
          exact inGroupD_foldl_mono sha rest _ h f.path
            (inGroupD_docStep_self sha st f h hh)
      | inr htail => exact ih htail _

/-- C7: two non-binary document files whose contents are nonempty and agree
after whitespace removal and lowercasing get the same signature (the `sha`
digest of the common normalized text, for any digest function), and the
duplicate grouper places both files in the group keyed by that signature. -/
theorem normalized_text_same_group (sha : String → String) (files : List DFile)
    (f1 f2 : DFile) (hm1 : f1 ∈ files) (hm2 : f2 ∈ files)
    (hb1 : strToLower f1.suffix ∉ binaryFormats)
    (hb2 : strToLower f2.suffix ∉ binaryFormats)
    (hc1 : f1.content ≠ "") (hc2 : f2.content ≠ "")
    (hn : normalizeContent f1.content = normalizeContent f2.content) :
    (computeDocHash sha f1).2 = (computeDocHash sha f2).2 ∧
    ∃ h, (computeDocHash sha f1).2 = some h ∧
      inGroupD (findDuplicatesD sha files) h f1.path ∧
      inGroupD (findDuplicatesD sha files) h f2.path := by
  have h1 : (computeDocHash sha f1).2 = some (sha (normalizeContent f1.content)) := by
    rw [computeDocHash]
    simp [hc1, hb1]
  have h2 : (computeDocHash sha f2).2 = some (sha (normalizeContent f2.content)) := by
    rw [computeDocHash]
    simp [hc2, hb2]
  rw [hn] at h1
  refine ⟨by rw [h1, h2], sha (normalizeContent f2.content), h1, ?_, ?_⟩
  · exact inGroupD_foldl_self sha files f1 hm1 _ h1 ⟨[], []⟩
  · exact inGroupD_foldl_self sha files f2 hm2 _ h2 ⟨[], []⟩

theorem normalized_text_same_group_witness :
    normalizeContent (DFile.mk "a.txt" ".txt" "Hello World" none false).content
      = normalizeContent (DFile.mk "b.txt" ".txt" "hello   world" none false).content ∧
    ∃ h, (computeDocHash (fun s => s) ⟨"a.txt", ".txt", "Hello World", none, false⟩).2 = some h ∧
      inGroupD (findDuplicatesD (fun s => s)
        [⟨"a.txt", ".txt", "Hello World", none, false⟩,
         ⟨"b.txt", ".txt", "hello   world", none, false⟩]) h "a.txt" ∧
      inGroupD (findDuplicatesD (fun s => s)
        [⟨"a.txt", ".txt", "Hello World", none, false⟩,
         ⟨"b.txt", ".txt", "hello   world", none, false⟩]) h "b.txt" :=
  ⟨by decide,
   (normalized_text_same_group (fun s => s)
      [⟨"a.txt", ".txt", "Hello World", none, false⟩,
       ⟨"b.txt", ".txt", "hello   world", none, false⟩]
      ⟨"a.txt", ".txt", "Hello World", none, false⟩
      ⟨"b.txt", ".txt", "hello   world", none, false⟩
      (by decide) (by decide) (by decide) (by decide)
      (by decide) (by decide) (by decide)).2⟩

/-! ### Image pair grouping -/

theorem pair_group_iff (t : Nat) (p1 p2 s1 s2 : String) (d1 d2 : Nat)
    (hne : p1 ≠ p2)
    (h1 : isImageFile ⟨p1, s1, some d1⟩ = true)
    (h2 : isImageFile ⟨p2, s2, some d2⟩ = true) :
    sameGrouped (findDuplicatesI t [⟨p1, s1, some d1⟩, ⟨p2, s2, some d2⟩]) p1 p2 = true
      ↔ charHam (hexChars 16 d2) (hexChars 16 d1) ≤ t := by
  have hp21 : (p2 == p1) = false := beq_eq_false_iff_ne.mpr (Ne.symm hne)
  have hp12 : (p1 == p2) = false := beq_eq_false_iff_ne.mpr hne
  have hst1 : imgStep t ⟨[], []⟩ ⟨p1, s1, some d1⟩ = ⟨[(hexChars 16 d1, p1)], []⟩ := by
    simp [imgStep, computeFileHashI, h1, findSimilarKey]
  have hfd : findDuplicatesI t [⟨p1, s1, some d1⟩, ⟨p2, s2, some d2⟩]
      = imgStep t (imgStep t ⟨[], []⟩ ⟨p1, s1, some d1⟩) ⟨p2, s2, some d2⟩ := rfl
  by_cases hle : charHam (hexChars 16 d2) (hexChars 16 d1) ≤ t
  · have hsim : findSimilarKey (hexChars 16 d2) t [(hexChars 16 d1, p1)]
        = some (hexChars 16 d1) := by
      simp [findSimilarKey, hexChars_length, hle]
    have hst2 : imgStep t ⟨[(hexChars 16 d1, p1)], []⟩ ⟨p2, s2, some d2⟩
        = ⟨[(hexChars 16 d1, p1)], [(hexChars 16 d1, [p2])]⟩ := by
      simp [imgStep, computeFileHashI, h2, hsim, addDup]
    rw [hfd, hst1, hst2]
    simp only [sameGrouped, List.any_cons, List.any_nil, List.lookup, beq_self_eq_true,
      Option.getD_some, Bool.or_false]
    simp [List.contains, List.elem, hp21, hle]
  · have hsim : findSimilarKey (hexChars 16 d2) t [(hexChars 16 d1, p1)] = none := by
      simp [findSimilarKey, hexChars_length, hle]
    have hst2 : imgStep t ⟨[(hexChars 16 d1, p1)], []⟩ ⟨p2, s2, some d2⟩
        = ⟨[(hexChars 16 d1, p1), (hexChars 16 d2, p2)], []⟩ := by
      simp [imgStep, computeFileHashI, h2, hsim]
    rw [hfd, hst1, hst2]
    simp only [sameGrouped, List.any_cons, List.any_nil, List.lookup, List.lookup_nil,
      Option.getD_none]
    simp [List.contains, List.elem, hp21, hp12, hle]

/-- C6 (amended): for a pair of image files with perceptual signatures, the
grouper unites them exactly when the number of differing hexadecimal
characters of their 16-character hash strings (the character-level Hamming
distance the code computes) is at most the threshold.  Two hashes that
differ in exactly one bit differ in exactly one hexadecimal character, so
the 1-bit scenario of the claim is unaffected; hashes differing in several
bits of one nibble still differ in only one character, which is where the
bit-level reading of the claim fails. -/
theorem image_pair_grouping_charham (t : Nat) (p1 p2 s1 s2 : String) (d1 d2 : Nat)
    (hne : p1 ≠ p2)
    (h1 : isImageFile ⟨p1, s1, some d1⟩ = true)
    (h2 : isImageFile ⟨p2, s2, some d2⟩ = true) :
    sameGrouped (findDuplicatesI t [⟨p1, s1, some d1⟩, ⟨p2, s2, some d2⟩]) p1 p2 = true
      ↔ charHam (hexChars 16 d2) (hexChars 16 d1) ≤ t :=
  pair_group_iff t p1 p2 s1 s2 d1 d2 hne h1 h2

theorem image_pair_grouping_charham_witness :
    ("a" ≠ "b") ∧
    (sameGrouped (findDuplicatesI 1 [⟨"a", ".jpg", some 0⟩, ⟨"b", ".jpg", some 3⟩]) "a" "b" = true
      ↔ charHam (hexChars 16 3) (hexChars 16 0) ≤ 1) :=
  ⟨by decide,
   image_pair_grouping_charham 1 "a" "b" ".jpg" ".jpg" 0 3
     (by decide) (by decide) (by decide)⟩

/-- C4 (amended): for a list of exactly two image files, raising the
threshold preserves grouping — if the pair is grouped at threshold `t` it
stays grouped at any `t2 ≥ t`.  (For three or more files the greedy
first-match scan makes the claim fail, see the counterexample.) -/
theorem threshold_monotone_two_files (t t2 : Nat) (htt : t ≤ t2)
    (p1 p2 s1 s2 : String) (d1 d2 : Nat) (hne : p1 ≠ p2)
    (h1 : isImageFile ⟨p1, s1, some d1⟩ = true)
    (h2 : isImageFile ⟨p2, s2, some d2⟩ = true)
    (hg : sameGrouped (findDuplicatesI t [⟨p1, s1, some d1⟩, ⟨p2, s2, some d2⟩]) p1 p2 = true) :
    sameGrouped (findDuplicatesI t2 [⟨p1, s1, some d1⟩, ⟨p2, s2, some d2⟩]) p1 p2 = true := by
  have hh := (pair_group_iff t p1 p2 s1 s2 d1 d2 hne h1 h2).mp hg
  exact (pair_group_iff t2 p1 p2 s1 s2 d1 d2 hne h1 h2).mpr (le_trans hh htt)

theorem threshold_monotone_two_files_witness :
    (0 : Nat) ≤ 1 ∧
    sameGrouped (findDuplicatesI 1 [⟨"a", ".jpg", some 7⟩, ⟨"b", ".jpg", some 7⟩]) "a" "b" = true :=
  ⟨by decide,
   threshold_monotone_two_files 0 1 (by decide) "a" "b" ".jpg" ".jpg" 7 7
     (by decide) (by decide) (by decide) (by decide)⟩

/-! ### Image grouper invariants -/

theorem mem_of_contains {α : Type} [BEq α] [LawfulBEq α] {l : List α} {a : α}
    (h : l.contains a = true) : a ∈ l :=
  List.mem_of_elem_eq_true h

theorem computeFileHashI_fst (f : IFile) : (computeFileHashI f).1 = f.path := by
  rcases f with ⟨p, s, d⟩
  cases d <;> rfl

theorem computeFileHashI_pair (f : IFile) :
    computeFileHashI f = (f.path, (computeFileHashI f).2) := by
  cases hc : computeFileHashI f with
  | mk a b =>
      have hfst := computeFileHashI_fst f
      rw [hc] at hfst
      dsimp only at hfst
      subst hfst
      rfl

theorem computeFileHashI_some_length (f : IFile) (h : List Char)
    (hh : (computeFileHashI f).2 = some h) :
    h.length = if isImageFile f then 16 else 32 := by
  rcases f with ⟨p, s, d⟩
  cases d with
  | none => simp [computeFileHashI] at hh
  | some dv =>
      cases hI : isImageFile ⟨p, s, some dv⟩ with
      | true =>
          simp only [computeFileHashI, hI, if_true, Option.some.injEq] at hh
          subst hh
          simp [hI, hexChars_length]
      | false =>
          simp only [computeFileHashI, hI, Bool.false_eq_true, if_false,
            Option.some.injEq] at hh
          subst hh
          simp [hI, hexChars_length]

theorem imgStep_none (t : Nat) (st : IState) (f : IFile)
    (hn : (computeFileHashI f).2 = none) : imgStep t st f = st := by
  rw [imgStep, computeFileHashI_pair f, hn]

theorem imgStep_img_hit (t : Nat) (st : IState) (f : IFile) (fh ex : List Char)
    (hh : (computeFileHashI f).2 = some fh) (hI : isImageFile f = true)
    (hs : findSimilarKey fh t st.hd = some ex) :
    imgStep t st f = { st with dups := addDup st.dups ex f.path } := by
  rw [imgStep, computeFileHashI_pair f, hh]
  simp [hI, hs]

theorem imgStep_img_miss (t : Nat) (st : IState) (f : IFile) (fh : List Char)
    (hh : (computeFileHashI f).2 = some fh) (hI : isImageFile f = true)
    (hs : findSimilarKey fh t st.hd = none) :
    imgStep t st f = { st with hd := st.hd ++ [(fh, f.path)] } := by
  rw [imgStep, computeFileHashI_pair f, hh]
  simp [hI, hs]

theorem imgStep_nonimg_hit (t : Nat) (st : IState) (f : IFile) (fh : List Char)
    (hh : (computeFileHashI f).2 = some fh) (hI : isImageFile f = false)
    (hl : (List.lookup fh st.hd).isSome) :
    imgStep t st f = { st with dups := addDup st.dups fh f.path } := by
  rw [imgStep, computeFileHashI_pair f, hh]
  simp [hI, hl]

theorem imgStep_nonimg_miss (t : Nat) (st : IState) (f : IFile) (fh : List Char)
    (hh : (computeFileHashI f).2 = some fh) (hI : isImageFile f = false)
    (hl : ¬ (List.lookup fh st.hd).isSome) :
    imgStep t st f = { st with hd := st.hd ++ [(fh, f.path)] } := by
  rw [imgStep, computeFileHashI_pair f, hh]
  simp only [Bool.not_eq_true] at hl
  simp [hI, hl]

theorem findSimilarKey_some_spec (fh : List Char) (t : Nat) :
    ∀ (hd : List (List Char × String)) (ex : List Char),
      findSimilarKey fh t hd = some ex → ex.length = fh.length ∧ ∃ p, (ex, p) ∈ hd := by
  intro hd
  induction hd with
  | nil => intro ex h; simp [findSimilarKey] at h
  | cons e rest ih =>
      intro ex h
      cases e with
      | mk k p =>
          rw [findSimilarKey] at h
          by_cases hcond : k.length = fh.length ∧ charHam fh k ≤ t
          · rw [if_pos hcond] at h
            simp only [Option.some.injEq] at h
            subst h
            exact ⟨hcond.1, p, List.mem_cons_self _ _⟩
          · rw [if_neg hcond] at h
            obtain ⟨hlen, p2, hmem⟩ := ih ex h
            exact ⟨hlen, p2, List.mem_cons_of_mem _ hmem⟩

theorem addDup_mem {α : Type} [BEq α] [LawfulBEq α]
    (d : List (α × List String)) (k : α) (p : String)
    (k2 : α) (l2 : List String) (hmem : (k2, l2) ∈ addDup d k p)
    (q : String) (hq : q ∈ l2) :
    (q = p ∧ k2 = k) ∨ ∃ l0, (k2, l0) ∈ d ∧ q ∈ l0 := by
  rw [addDup] at hmem
  by_cases hany : d.any (fun e => e.1 == k) = true
  · rw [if_pos hany] at hmem
    rw [List.mem_map] at hmem
    obtain ⟨e, hed, hmap⟩ := hmem
    cases e with
    | mk a b =>
        cases hak : a == k with
        | true =>
            have hak2 : a = k := eq_of_beq hak
            simp only [hak, cond_true, Prod.mk.injEq] at hmap
            rw [← hmap.2] at hq
            rw [List.mem_append] at hq
            cases hq with
            | inl hqb => exact Or.inr ⟨b, by rw [← hmap.1]; exact hed, hqb⟩
            | inr hqp =>
                rw [List.mem_singleton] at hqp
                exact Or.inl ⟨hqp, by rw [← hmap.1, hak2]⟩
        | false =>
            simp only [hak, cond_false, Prod.mk.injEq] at hmap
            refine Or.inr ⟨b, ?_, by rw [hmap.2]; exact hq⟩
            rw [← hmap.1]
            exact hed
  · rw [if_neg hany] at hmem
    rw [List.mem_append] at hmem
    cases hmem with
    | inl hold => exact Or.inr ⟨l2, hold, hq⟩
    | inr hnew =>
        rw [List.mem_singleton, Prod.mk.injEq] at hnew
        rw [hnew.2] at hq
        rw [List.mem_singleton] at hq
        exact Or.inl ⟨hq, hnew.1⟩

/-- Every entry of `hash_dict` is owned by a processed file whose hash
string has the entry key's length. -/
def entryOK (files : List IFile) (e : List Char × String) : Prop :=
  ∃ f ∈ files, f.path = e.2 ∧
    ∃ h, (computeFileHashI f).2 = some h ∧ h.length = e.1.length

/-- Every member of a `duplicates` entry is a processed file whose hash
string has the entry key's length. -/
def dupOK (files : List IFile) (e : List Char × List String) : Prop :=
  ∀ p ∈ e.2, ∃ f ∈ files, f.path = p ∧
    ∃ h, (computeFileHashI f).2 = some h ∧ h.length = e.1.length

/-- Invariant of the image grouper state. -/
def stOK (files : List IFile) (st : IState) : Prop :=
  (∀ e ∈ st.hd, entryOK files e) ∧ (∀ e ∈ st.dups, dupOK files e)

theorem imgStep_stOK (t : Nat) (files : List IFile) (st : IState) (f : IFile)
    (hf : f ∈ files) (hok : stOK files st) : stOK files (imgStep t st f) := by
  cases hc : (computeFileHashI f).2 with
  | none => rw [imgStep_none t st f hc]; exact hok
  | some fh =>
      have hlen : fh.length = if isImageFile f then 16 else 32 :=
        computeFileHashI_some_length f fh hc
      cases hI : isImageFile f with
      | true =>
          simp only [hI, if_true] at hlen
          cases hs : findSimilarKey fh t st.hd with
          | some ex =>
              rw [imgStep_img_hit t st f fh ex hc hI hs]
              refine ⟨hok.1, ?_⟩
              rintro ⟨k2, l2⟩ he q hq
              rcases addDup_mem st.dups ex f.path k2 l2 he q hq with ⟨hqp, hk⟩ | ⟨l0, hl0, hql0⟩
              · refine ⟨f, hf, hqp.symm, fh, hc, ?_⟩
                have hex := (findSimilarKey_some_spec fh t st.hd ex hs).1
                rw [hk, hex]
              · exact hok.2 (k2, l0) hl0 q hql0
          | none =>
              rw [imgStep_img_miss t st f fh hc hI hs]
              refine ⟨?_, hok.2⟩
              intro e he
              rw [List.mem_append] at he
              cases he with
              | inl hold => exact hok.1 e hold
              | inr hnew =>
                  rw [List.mem_singleton] at hnew
                  subst hnew
                  exact ⟨f, hf, rfl, fh, hc, rfl⟩
      | false =>
          by_cases hl : (List.lookup fh st.hd).isSome
          · rw [imgStep_nonimg_hit t st f fh hc hI hl]
            refine ⟨hok.1, ?_⟩
            rintro ⟨k2, l2⟩ he q hq
            rcases addDup_mem st.dups fh f.path k2 l2 he q hq with ⟨hqp, hk⟩ | ⟨l0, hl0, hql0⟩
            · refine ⟨f, hf, hqp.symm, fh, hc, ?_⟩
              rw [hk]
            · exact hok.2 (k2, l0) hl0 q hql0
          · rw [imgStep_nonimg_miss t st f fh hc hI hl]
            refine ⟨?_, hok.2⟩
            intro e he
            rw [List.mem_append] at he
            cases he with
            | inl hold => exact hok.1 e hold
            | inr hnew =>
                rw [List.mem_singleton] at hnew
                subst hnew
                exact ⟨f, hf, rfl, fh, hc, rfl⟩

theorem stOK_foldl (t : Nat) (files : List IFile) :
    ∀ (fs : List IFile), (∀ f ∈ fs, f ∈ files) →
      ∀ st : IState, stOK files st → stOK files (fs.foldl (imgStep t) st) := by
  intro fs
  induction fs with
  | nil => intro _ st hok; exact hok
  | cons g rest ih =>
      intro hsub st hok
      exact ih (fun f hf => hsub f (List.mem_cons_of_mem _ hf)) _
        (imgStep_stOK t files st g (hsub g (List.mem_cons_self _ _)) hok)

theorem stOK_findDuplicatesI (t : Nat) (files : List IFile) :
    stOK files (findDuplicatesI t files) := by
  refine stOK_foldl t files files (fun f hf => hf) ⟨[], []⟩ ⟨?_, ?_⟩
  · intro e he; simp at he
  · intro e he; simp at he

/-- C10: every duplicate group the image grouper emits is homogeneous in
file kind — if two files of the run land in the same group, either both
are image files or both are not.  Perceptual hash strings have 16
characters and MD5 hexdigests have 32; the image scan only matches keys of
equal length and the exact-match path only matches an identical string, so
no group mixes the two kinds. -/
theorem groups_kind_homogeneous (t : Nat) (files : List IFile)
    (hnd : (files.map (fun x => x.path)).Nodup)
    (f g : IFile) (hf : f ∈ files) (hg : g ∈ files)
    (hsg : sameGrouped (findDuplicatesI t files) f.path g.path = true) :
    isImageFile f = isImageFile g := by
  have hok := stOK_findDuplicatesI t files
  rw [sameGrouped, List.any_eq_true] at hsg
  obtain ⟨e, he, hcontains⟩ := hsg
  rw [Bool.and_eq_true] at hcontains
  have hmem_spec : ∀ q : String,
      q ∈ e.2 :: ((List.lookup e.1 (findDuplicatesI t files).dups).getD []) →
      ∃ f2 ∈ files, f2.path = q ∧
        ∃ h, (computeFileHashI f2).2 = some h ∧ h.length = e.1.length := by
    intro q hq
    rw [List.mem_cons] at hq
    cases hq with
    | inl hqe =>
        obtain ⟨f2, hf2, hp2, h2, hh2, hl2⟩ := hok.1 e he
        exact ⟨f2, hf2, by rw [hp2, hqe], h2, hh2, hl2⟩
    | inr hql =>
        cases hlk : List.lookup e.1 (findDuplicatesI t files).dups with
        | none => rw [hlk] at hql; simp at hql
        | some l =>
            rw [hlk] at hql
            simp only [Option.getD_some] at hql
            exact hok.2 (e.1, l) (lookup_mem e.1 _ l hlk) q hql
  obtain ⟨f2, hf2, hfp, h1, hh1, hl1⟩ := hmem_spec f.path (mem_of_contains hcontains.1)
  obtain ⟨g2, hg2, hgp, h2, hh2, hl2⟩ := hmem_spec g.path (mem_of_contains hcontains.2)
  have hff : f2 = f := List.inj_on_of_nodup_map hnd hf2 hf hfp
  have hgg : g2 = g := List.inj_on_of_nodup_map hnd hg2 hg hgp
  rw [hff] at hh1
  rw [hgg] at hh2
  have hL1 := computeFileHashI_some_length f h1 hh1
  have hL2 := computeFileHashI_some_length g h2 hh2
  have hle : (if isImageFile f then 16 else 32) = (if isImageFile g then 16 else 32) := by
    rw [← hL1, ← hL2, hl1, hl2]
  cases hIf : isImageFile f <;> cases hIg : isImageFile g <;>
    simp [hIf, hIg] at hle ⊢

theorem groups_kind_homogeneous_witness :
    (([⟨"a", ".jpg", some 5⟩] : List IFile).map (fun x => x.path)).Nodup ∧
    isImageFile (⟨"a", ".jpg", some 5⟩ : IFile) = isImageFile ⟨"a", ".jpg", some 5⟩ :=
  ⟨by decide,
   groups_kind_homogeneous 0 [⟨"a", ".jpg", some 5⟩] (by decide)
     ⟨"a", ".jpg", some 5⟩ ⟨"a", ".jpg", some 5⟩ (by decide) (by decide) (by decide)⟩

theorem mem_dupPaths_foldl :
    ∀ (l : List (List Char × List String)) (acc : List String) (p : String),
      p ∈ l.foldl (fun acc e => if e.2.length > 1 then acc ++ e.2.drop 1 else acc) acc →
      p ∈ acc ∨ ∃ e ∈ l, p ∈ e.2 := by
  intro l
  induction l with
  | nil => intro acc p hp; exact Or.inl hp
  | cons e rest ih =>
      intro acc p hp
      rw [List.foldl_cons] at hp
      rcases ih _ p hp with hacc | ⟨e2, he2, hpe2⟩
      · by_cases hlen : e.2.length > 1
        · rw [if_pos hlen] at hacc
          rw [List.mem_append] at hacc
          cases hacc with
          | inl h => exact Or.inl h
          | inr h => exact Or.inr ⟨e, List.mem_cons_self _ _, List.mem_of_mem_drop h⟩
        · rw [if_neg hlen] at hacc
          exact Or.inl hacc
      · exact Or.inr ⟨e2, List.mem_cons_of_mem _ he2, hpe2⟩

theorem docScanStep_none (sha : String → String) (st : List String × List String)
    (f : DFile) (hn : (computeDocHash sha f).2 = none) :
    docScanStep sha st f = st := by
  rw [docScanStep, computeDocHash_pair sha f, hn]

theorem docScanStep_some (sha : String → String) (st : List String × List String)
    (f : DFile) (h : String) (hh : (computeDocHash sha f).2 = some h) :
    docScanStep sha st f
      = if st.2.contains h then st else (st.1 ++ [f.path], st.2 ++ [h]) := by
  rw [docScanStep, computeDocHash_pair sha f, hh]

theorem docScan_inv (sha : String → String) (files0 : List DFile) :
    ∀ (fs : List DFile), (∀ f ∈ fs, f ∈ files0) →
      ∀ st : List String × List String,
        (∀ q ∈ st.1, ∃ f ∈ files0, f.path = q ∧ ((computeDocHash sha f).2).isSome) →
        ∀ q ∈ (fs.foldl (docScanStep sha) st).1,
          ∃ f ∈ files0, f.path = q ∧ ((computeDocHash sha f).2).isSome := by
  intro fs
  induction fs with
  | nil => intro _ st hst q hq; exact hst q hq
  | cons g rest ih =>
      intro hsub st hst q hq
      rw [List.foldl_cons] at hq
      refine ih (fun f hf => hsub f (List.mem_cons_of_mem _ hf)) _ ?_ q hq
      intro q2 hq2
      cases hc : (computeDocHash sha g).2 with
      | none => rw [docScanStep_none sha st g hc] at hq2; exact hst q2 hq2
      | some h =>
          rw [docScanStep_some sha st g h hc] at hq2
          by_cases hcon : st.2.contains h = true
          · rw [if_pos hcon] at hq2; exact hst q2 hq2
          · rw [if_neg hcon] at hq2
            dsimp only at hq2
            rw [List.mem_append] at hq2
            cases hq2 with
            | inl hold => exact hst q2 hold
            | inr hnew =>
                rw [List.mem_singleton] at hnew
                exact ⟨g, hsub g (List.mem_cons_self _ _), hnew.symm, by rw [hc]; rfl⟩

/-- C3 (amended): a file whose signature computation fails is excluded
from duplicate detection in both variants; in the image variant it is
still relocated — it stays in the unique set that `organize_files`
copies — while in the document variant it is additionally excluded from
relocation, because the unique-file scan of `main` skips files with no
signature. -/
theorem unreadable_dedup_exclusion_amended (t : Nat) (files : List IFile)
    (hnd : (files.map (fun x => x.path)).Nodup)
    (f : IFile) (hf : f ∈ files) (hnone : f.digest = none)
    (sha : String → String) (dfiles : List DFile)
    (hdnd : (dfiles.map (fun x => x.path)).Nodup)
    (g : DFile) (hg : g ∈ dfiles) (hgnone : (computeDocHash sha g).2 = none) :
    f.path ∈ imageUniquePaths t files ∧ g.path ∉ (docMainScan sha dfiles).1 := by
  have hfnone : (computeFileHashI f).2 = none := by
    rcases f with ⟨p, s, d⟩
    dsimp only at hnone
    subst hnone
    rfl
  constructor
  · have hnotmem : f.path ∉ imageDuplicatePaths t files := by
      intro hmem
      rw [imageDuplicatePaths] at hmem
      rcases mem_dupPaths_foldl (findDuplicatesI t files).dups [] f.path hmem with
        habs | ⟨e, he, hpe⟩
      · simp at habs
      · have hok := stOK_findDuplicatesI t files
        obtain ⟨f2, hf2, hp2, h2, hh2, _⟩ := hok.2 e he f.path hpe
        have hff : f2 = f := List.inj_on_of_nodup_map hnd hf2 hf hp2
        rw [hff, hfnone] at hh2
        exact Option.noConfusion hh2
    rw [imageUniquePaths, List.mem_map]
    refine ⟨f, ?_, rfl⟩
    rw [List.mem_filter]
    refine ⟨hf, ?_⟩
    cases hcon : (imageDuplicatePaths t files).contains f.path with
    | false => rfl
    | true => exact absurd (mem_of_contains hcon) hnotmem
  · intro hmem
    obtain ⟨g2, hg2, hp2, hsome⟩ :=
      docScan_inv sha dfiles dfiles (fun x hx => hx) ([], [])
        (by intro q hq; simp at hq) g.path hmem
    have hgg : g2 = g := List.inj_on_of_nodup_map hdnd hg2 hg hp2
    rw [hgg, hgnone] at hsome
    simp at hsome

theorem unreadable_dedup_exclusion_amended_witness :
    (⟨"broken", ".jpg", none⟩ : IFile).digest = none ∧
    "broken" ∈ imageUniquePaths 0 [⟨"broken", ".jpg", none⟩] ∧
    "u" ∉ (docMainScan (fun s => s) [⟨"u", ".txt", "", none, false⟩]).1 :=
  ⟨rfl,
   (unreadable_dedup_exclusion_amended 0 [⟨"broken", ".jpg", none⟩] (by decide)
      ⟨"broken", ".jpg", none⟩ (by decide) rfl (fun s => s)
      [⟨"u", ".txt", "", none, false⟩] (by decide)
      ⟨"u", ".txt", "", none, false⟩ (by decide) (by decide)).1,
   (unreadable_dedup_exclusion_amended 0 [⟨"broken", ".jpg", none⟩] (by decide)
      ⟨"broken", ".jpg", none⟩ (by decide) rfl (fun s => s)
      [⟨"u", ".txt", "", none, false⟩] (by decide)
      ⟨"u", ".txt", "", none, false⟩ (by decide) (by decide)).2⟩
